import Mathlib

/-!
Verification of the APNG chunk parser and frame re-synthesizer
(src/parsers/parse_apng.ts) against its specification.

A byte buffer is modelled as a `List Nat` of byte values.  Reads beyond the
end of the buffer yield the default value `0` (the source performs no bounds
checking; typed-array reads past the end produce no error).  The helper
functions `readDWord`, `readWord`, `readByte`, `readString`, `subBuffer`,
`makeDWordArray`, `makeStringArray` (from parse_base), `crc32` (the Checksum
Unit) and the PNG signature constant are not part of the given source tree
and are modelled from the spec; everything else is translated directly from
parse_apng.ts.
-/

set_option maxHeartbeats 1000000

/-- Modelled from the spec: big-endian 32-bit read (parse_base readDWord);
bytes outside the buffer read as 0. -/
def readDWord (bytes : List Nat) (off : Nat) : Nat :=
  bytes.getD off 0 * 16777216 + bytes.getD (off + 1) 0 * 65536 +
    bytes.getD (off + 2) 0 * 256 + bytes.getD (off + 3) 0

/-- Modelled from the spec: big-endian 16-bit read (parse_base readWord). -/
def readWord (bytes : List Nat) (off : Nat) : Nat :=
  bytes.getD off 0 * 256 + bytes.getD (off + 1) 0

/-- Modelled from the spec: single-byte read (parse_base readByte). -/
def readByte (bytes : List Nat) (off : Nat) : Nat :=
  bytes.getD off 0

/-- Modelled from the spec: read n bytes as an n-character type tag
(parse_base readString). -/
def readString (bytes : List Nat) (off n : Nat) : String :=
  String.mk ((List.range n).map (fun i => Char.ofNat (bytes.getD (off + i) 0)))

/-- Clamped slice of a buffer, elements [b, e): the semantics of
Uint8Array.subarray views (contents read through the view). -/
def subarray (l : List Nat) (b e : Nat) : List Nat :=
  (l.take e).drop b

/-- Modelled from the spec: parse_base subBuffer, the raw byte range of
length len starting at start. -/
def subBuffer (l : List Nat) (start len : Nat) : List Nat :=
  subarray l start (start + len)

/-- One visitor invocation of the chunk walker: the 4-character type tag,
the chunk start offset, the declared payload length, and the Bool the
visitor returned. -/
structure ChunkVisit where
  ctype : String
  off : Nat
  length : Nat
  cont : Bool
deriving DecidableEq, Repr, Inhabited

/-- Fuelled body of parseChunks (parse_apng.ts lines 156-165).  The do-while
loop advances the offset by 12 + length per chunk, so it performs at most
one iteration per 12 bytes of buffer; the wrapper below supplies fuel
bytes.length + 1, which is proved sufficient in the lemmas. -/
def parseChunksAux {σ : Type} (bytes : List Nat)
    (visit : String → Nat → Nat → σ → σ × Bool) :
    Nat → Nat → σ → σ × List ChunkVisit
  | 0, _, s => (s, [])
  | fuel + 1, off, s =>
    if (visit (readString bytes (off + 4) 4) off (readDWord bytes off) s).2 = true ∧
        readString bytes (off + 4) 4 ≠ "IEND" ∧
        off + 12 + readDWord bytes off < bytes.length then
      ((parseChunksAux bytes visit fuel (off + 12 + readDWord bytes off)
          (visit (readString bytes (off + 4) 4) off (readDWord bytes off) s).1).1,
        ChunkVisit.mk (readString bytes (off + 4) 4) off (readDWord bytes off)
            (visit (readString bytes (off + 4) 4) off (readDWord bytes off) s).2 ::
          (parseChunksAux bytes visit fuel (off + 12 + readDWord bytes off)
            (visit (readString bytes (off + 4) 4) off (readDWord bytes off) s).1).2)
    else
      ((visit (readString bytes (off + 4) 4) off (readDWord bytes off) s).1,
        [ChunkVisit.mk (readString bytes (off + 4) 4) off (readDWord bytes off)
          (visit (readString bytes (off + 4) 4) off (readDWord bytes off) s).2])

/-- The chunk walker parseChunks: starts at offset 8 (after the 8-byte
signature) and returns the final visitor state together with the list of
visitor invocations, in order. -/
def parseChunks {σ : Type} (bytes : List Nat)
    (visit : String → Nat → Nat → σ → σ × Bool) (s : σ) : σ × List ChunkVisit :=
  parseChunksAux bytes visit (bytes.length + 1) 8 s

/-- A frame of the animation (utils/animation Frame, the fields used by the
parser).  dataParts stores the [start, stop) bounds of the Uint8Array views
pushed by the visitor (the views alias the input buffer). -/
structure Frame where
  width : Nat := 0
  height : Nat := 0
  left : Nat := 0
  top : Nat := 0
  delay : ℚ := 0
  disposeOp : Nat := 0
  blendOp : Nat := 0
  dataParts : List (Nat × Nat) := []
deriving DecidableEq, Repr, Inhabited

/-- Modelled from the spec: the Animation value, created empty at the start
of a parse operation. -/
structure Animation where
  width : Nat := 0
  height : Nat := 0
  numPlays : Nat := 0
  playTime : ℚ := 0
  frames : List Frame := []
deriving DecidableEq, Repr, Inhabited

/-- The mutable state of the extraction pass: prologue and epilogue chunk
groups, the Animation under construction, the [start, stop) bounds of the
headerDataBytes subarray view, and the current in-progress frame. -/
structure ParseState where
  pre : List (List Nat) := []
  post : List (List Nat) := []
  anim : Animation := {}
  header : Option (Nat × Nat) := none
  frame : Option Frame := none
deriving DecidableEq, Repr, Inhabited

/-- Denominator normalization of the fcTL case: a zero denominator is
replaced by 100 (parse_apng.ts line 64). -/
def fcTLDenom (d : Nat) : Nat :=
  if d = 0 then 100 else d

/-- Delay computation of the fcTL case (parse_apng.ts lines 62-67):
delay = 1000 * numerator / denominator, forced to 100 when <= 10. -/
def fcTLDelay (n d : Nat) : ℚ :=
  if (1000 * n : ℚ) / (fcTLDenom d : ℚ) ≤ 10 then 100
  else (1000 * n : ℚ) / (fcTLDenom d : ℚ)

/-- The frame built by the fcTL case from the chunk payload at offset
off + 8 (parse_apng.ts lines 57-71). -/
def fcTLFrame (bytes : List Nat) (off : Nat) : Frame :=
  Frame.mk (readDWord bytes (off + 8 + 4)) (readDWord bytes (off + 8 + 8))
    (readDWord bytes (off + 8 + 12)) (readDWord bytes (off + 8 + 16))
    (fcTLDelay (readWord bytes (off + 8 + 20)) (readWord bytes (off + 8 + 22)))
    (readByte bytes (off + 8 + 24)) (readByte bytes (off + 8 + 25)) []

/-- One step of the extraction visitor (the switch of parse_apng.ts
lines 45-98). -/
def mainStep (bytes : List Nat) (type : String) (off length : Nat)
    (st : ParseState) : ParseState :=
  if type = "IHDR" then
    { st with
        header := some (off + 8, off + 8 + length),
        anim := { st.anim with
          width := readDWord bytes (off + 8),
          height := readDWord bytes (off + 12) } }
  else if type = "acTL" then
    { st with anim := { st.anim with numPlays := readDWord bytes (off + 8 + 4) } }
  else if type = "fcTL" then
    { st with
        anim := { st.anim with
          frames := st.anim.frames ++
            (match st.frame with | some f => [f] | none => []),
          playTime := st.anim.playTime + (fcTLFrame bytes off).delay },
        frame := some (fcTLFrame bytes off) }
  else if type = "fdAT" then
    match st.frame with
    | some f =>
      { st with frame := some { f with
          dataParts := f.dataParts ++ [(off + 8 + 4, off + 8 + length)] } }
    | none => st
  else if type = "IDAT" then
    match st.frame with
    | some f =>
      { st with frame := some { f with
          dataParts := f.dataParts ++ [(off + 8, off + 8 + length)] } }
    | none =>
      { st with
          anim := { st.anim with playTime := st.anim.playTime + 100 },
          frame := some (Frame.mk st.anim.width st.anim.height 0 0 100 1 1
            [(off + 8, off + 8 + length)]) }
  else if type = "IEND" then
    { st with post := st.post ++ [subBuffer bytes off (12 + length)] }
  else
    { st with pre := st.pre ++ [subBuffer bytes off (12 + length)] }

/-- The extraction visitor: always continues (the callback of
parse_apng.ts line 45 returns true). -/
def mainVisit (bytes : List Nat) :
    String → Nat → Nat → ParseState → ParseState × Bool :=
  fun type off length st => (mainStep bytes type off length st, true)

/-- The fast pre-scan visitor (parse_apng.ts lines 30-36): stops at the
first acTL chunk. -/
def prescanVisit : String → Nat → Nat → Bool → Bool × Bool :=
  fun type _ _ s => if type = "acTL" then (true, false) else (s, true)

/-- Result of the fast animation test. -/
def isAnimated (bytes : List Nat) : Bool :=
  (parseChunks bytes prescanVisit false).1

/-- Final state of the extraction pass. -/
def extractState (bytes : List Nat) : ParseState :=
  (parseChunks bytes (mainVisit bytes) {}).1

/-- Visitor-invocation trace of the extraction pass. -/
def extractTrace (bytes : List Nat) : List ChunkVisit :=
  (parseChunks bytes (mainVisit bytes) {}).2

/-- End-of-pass finalization (parse_apng.ts line 100): push the in-progress
frame, if any. -/
def finalizeState (st : ParseState) : ParseState :=
  match st.frame with
  | some f => { st with anim := { st.anim with frames := st.anim.frames ++ [f] } }
  | none => st

/-- The parse operation up to the numPlays post-processing (parse_apng.ts
lines 27-109): either a rejection string or the populated Animation. -/
def parseAPNG (bytes : List Nat) (ignoreSingle forceLoop : Bool) :
    Except String Animation :=
  if isAnimated bytes = false ∧ ignoreSingle = true then
    Except.error "Not an animated PNG"
  else
    if (finalizeState (extractState bytes)).anim.frames.length ≤ 1 then
      if ignoreSingle = true then Except.error "Not an animated PNG"
      else Except.ok
        { (finalizeState (extractState bytes)).anim with numPlays := 1 }
    else if forceLoop = true then
      Except.ok { (finalizeState (extractState bytes)).anim with numPlays := 0 }
    else Except.ok (finalizeState (extractState bytes)).anim

/-- Overwrite of a list region: the semantics of Uint8Array.set(src, off)
(writes that would fall outside the target are dropped). -/
def listSet : List Nat → Nat → List Nat → List Nat
  | [], _, _ => []
  | x :: xs, 0, src =>
    match src with
    | [] => x :: xs
    | y :: ys => y :: listSet xs 0 ys
  | x :: xs, o + 1, src => x :: listSet xs o src

/-- One step of the reflected CRC-32 polynomial 0xEDB88320. -/
def crcStep (c : Nat) : Nat :=
  if c % 2 = 1 then Nat.xor 3988292384 (c / 2) else c / 2

/-- Fold one byte into the running CRC (eight polynomial steps). -/
def crcByte (c b : Nat) : Nat :=
  Nat.iterate crcStep 8 (Nat.xor c b)

/-- Modelled from the spec: the Checksum Unit (parsers/crc32), the standard
IEEE CRC-32 over bytes[start, start + len). -/
def crc32 (bytes : List Nat) (start len : Nat) : Nat :=
  Nat.xor (((bytes.drop start).take len).foldl crcByte 4294967295) 4294967295

/-- Modelled from the spec: parse_base makeDWordArray, the big-endian
4-byte encoding of a 32-bit value. -/
def makeDWordArray (x : Nat) : List Nat :=
  [x / 16777216 % 256, x / 65536 % 256, x / 256 % 256, x % 256]

/-- Modelled from the spec: parse_base makeStringArray, the byte values of
a type tag. -/
def makeStringArray (s : String) : List Nat :=
  s.data.map Char.toNat

/-- The chunk buffer of makeChunkBytes after the length, tag and payload
writes, before the checksum write (parse_apng.ts lines 174-177). -/
def makeChunkBody (type : String) (dataBytes : List Nat) : List Nat :=
  listSet (listSet (listSet (List.replicate (type.length + dataBytes.length + 8) 0)
    0 (makeDWordArray dataBytes.length)) 4 (makeStringArray type)) 8 dataBytes

/-- Chunk wrapping makeChunkBytes (parse_apng.ts lines 172-181): length,
tag, payload, then the CRC over bytes [4, 4 + type.length + payload length)
written at the end. -/
def makeChunkBytes (type : String) (dataBytes : List Nat) : List Nat :=
  listSet (makeChunkBody type dataBytes) (type.length + dataBytes.length + 4)
    (makeDWordArray (crc32 (makeChunkBody type dataBytes) 4
      (type.length + dataBytes.length)))

/-- Modelled from the spec: the 8-byte PNG format signature
(support.PNG_SIGNATURE_BYTES). -/
def pngSignature : List Nat :=
  [137, 80, 78, 71, 13, 10, 26, 10]

/-- The in-place width/height overwrite of the shared header view
(parse_apng.ts lines 119-120), acting on the whole input buffer; b is the
start of the headerDataBytes view. -/
def mutateHeader (b : Nat) (buf : List Nat) (f : Frame) : List Nat :=
  listSet (listSet buf b (makeDWordArray f.width)) (b + 4) (makeDWordArray f.height)

/-- The frame-synthesis loop (parse_apng.ts lines 114-127): returns the
buffer after all in-place header mutations together with the synthesized
standalone stream of each frame, in order.  b, e are the bounds of the
headerDataBytes view; pre, post are the joined prologue and epilogue
groups. -/
def synthFrames (pre post : List Nat) (b e : Nat) :
    List Nat → List Frame → List Nat × List (List Nat)
  | buf, [] => (buf, [])
  | buf, f :: fs =>
    ((synthFrames pre post b e (mutateHeader b buf f) fs).1,
      (pngSignature ++ makeChunkBytes "IHDR" (subarray (mutateHeader b buf f) b e) ++
        pre ++
        (f.dataParts.map
          (fun p => makeChunkBytes "IDAT" (subarray (mutateHeader b buf f) p.1 p.2))).flatten ++
        post) ::
      (synthFrames pre post b e (mutateHeader b buf f) fs).2)

/-- Settling state of the promise of the parse operation. -/
inductive PromiseResult where
  | resolved : PromiseResult
  | rejected : String → PromiseResult
  | pending : PromiseResult
deriving DecidableEq, Repr

/-- The image-load completion logic (parse_apng.ts lines 136-147): total is
anim.frames.length, the first argument is the createdImages counter, and the
list holds the outcome of each per-frame image load in completion order
(true = onload, false = onerror).  resolve fires only when the incremented
counter equals total inside an onload callback. -/
def runEvents (total : Nat) : Nat → List Bool → PromiseResult
  | _, [] => PromiseResult.pending
  | created, ev :: rest =>
    if ev = true then
      (if created + 1 = total then PromiseResult.resolved
       else runEvents total (created + 1) rest)
    else PromiseResult.rejected "Image creation error"

/-- Specification predicate for the chunk walker trace starting at offset o:
each visit records the declared big-endian length and the 4-character tag at
its offset, consecutive offsets advance by 12 + length, every non-final
visit satisfies all three continuation conditions, and the final visit
fails at least one of them. -/
def WalkTrace (bytes : List Nat) : Nat → List ChunkVisit → Prop
  | _, [] => False
  | o, [c] =>
    c.off = o ∧ c.length = readDWord bytes o ∧
      c.ctype = readString bytes (o + 4) 4 ∧
      ¬(c.cont = true ∧ c.ctype ≠ "IEND" ∧ o + 12 + c.length < bytes.length)
  | o, c :: c' :: rest =>
    c.off = o ∧ c.length = readDWord bytes o ∧
      c.ctype = readString bytes (o + 4) 4 ∧
      (c.cont = true ∧ c.ctype ≠ "IEND" ∧ o + 12 + c.length < bytes.length) ∧
      WalkTrace bytes (o + 12 + c.length) (c' :: rest)

/-- Number of visits of a given chunk type in a trace. -/
def countType (t : String) (tr : List ChunkVisit) : Nat :=
  (tr.filter (fun c => c.ctype == t)).length

/-- Whether some IDAT visit precedes every fcTL visit in the trace. -/
def hasLeadingIDAT : List ChunkVisit → Bool
  | [] => false
  | c :: rest =>
    if c.ctype = "IDAT" then true
    else if c.ctype = "fcTL" then false
    else hasLeadingIDAT rest

/-- Abstract frame bookkeeping over a trace, starting from a given
frame-in-progress flag: number of frames pushed during the pass and the
flag at the end. -/
def frameCount : Bool → List ChunkVisit → Nat × Bool
  | p, [] => (0, p)
  | p, c :: rest =>
    if c.ctype = "fcTL" then
      ((if p then 1 else 0) + (frameCount true rest).1, (frameCount true rest).2)
    else if c.ctype = "IDAT" then frameCount true rest
    else frameCount p rest

/-- The last acTL visit of a trace, if any. -/
def lastAcTL : List ChunkVisit → Option ChunkVisit
  | [] => none
  | c :: rest =>
    match lastAcTL rest with
    | some x => some x
    | none => if c.ctype = "acTL" then some c else none

/-- Claim C5 as stated: the number of finalized frames equals the number of
fcTL chunks encountered, except that a primary-image-data-only input (IDAT
chunks and no fcTL) yields exactly one synthesized frame. -/
def claimC5Pred (bytes : List Nat) : Prop :=
  (countType "fcTL" (extractTrace bytes) = 0 ∧
      1 ≤ countType "IDAT" (extractTrace bytes) ∧
      (finalizeState (extractState bytes)).anim.frames.length = 1) ∨
  (¬(countType "fcTL" (extractTrace bytes) = 0 ∧
      1 ≤ countType "IDAT" (extractTrace bytes)) ∧
    (finalizeState (extractState bytes)).anim.frames.length =
      countType "fcTL" (extractTrace bytes))

/-- A buffer whose chunk sequence is IDAT, fcTL, IEND (all with declared
length 0): pixel data precedes the first frame-control chunk. -/
def cexBytesC5 : List Nat :=
  [0, 0, 0, 0, 0, 0, 0, 0,
   0, 0, 0, 0, 73, 68, 65, 84, 0, 0, 0, 0,
   0, 0, 0, 0, 102, 99, 84, 76, 0, 0, 0, 0,
   0, 0, 0, 0, 73, 69, 78, 68, 0, 0, 0, 0]

/-- A buffer whose chunk sequence is acTL (declared length 8, payload
numFrames 2 and numPlays 7), two fcTL chunks and IEND. -/
def cexBytesC4 : List Nat :=
  [0, 0, 0, 0, 0, 0, 0, 0,
   0, 0, 0, 8, 97, 99, 84, 76, 0, 0, 0, 2, 0, 0, 0, 7, 0, 0, 0, 0,
   0, 0, 0, 0, 102, 99, 84, 76, 0, 0, 0, 0,
   0, 0, 0, 0, 102, 99, 84, 76, 0, 0, 0, 0,
   0, 0, 0, 0, 73, 69, 78, 68, 0, 0, 0, 0]

/-- A buffer whose chunk sequence is IHDR then IEND (declared lengths 0):
no fcTL and no IDAT chunk at all. -/
def cexBytesC10 : List Nat :=
  [0, 0, 0, 0, 0, 0, 0, 0,
   0, 0, 0, 0, 73, 72, 68, 82, 0, 0, 0, 0,
   0, 0, 0, 0, 73, 69, 78, 68, 0, 0, 0, 0]

/-! ### Chunk walker lemmas -/

theorem parseChunksAux_ne_nil {σ : Type} (bytes : List Nat)
    (visit : String → Nat → Nat → σ → σ × Bool) (fuel off : Nat) (s : σ)
    (h : 1 ≤ fuel) : (parseChunksAux bytes visit fuel off s).2 ≠ [] := by
  cases fuel with
  | zero => omega
  | succ n =>
    simp only [parseChunksAux]
    split <;> simp

theorem parseChunksAux_walk {σ : Type} (bytes : List Nat)
    (visit : String → Nat → Nat → σ → σ × Bool) :
    ∀ (fuel off : Nat) (s : σ), 1 ≤ fuel → bytes.length ≤ off + 12 * fuel →
      WalkTrace bytes off (parseChunksAux bytes visit fuel off s).2 := by
  intro fuel
  induction fuel with
  | zero => intro off s h; omega
  | succ n ih =>
    intro off s _ hlen
    by_cases hc : (visit (readString bytes (off + 4) 4) off (readDWord bytes off) s).2 = true ∧
        readString bytes (off + 4) 4 ≠ "IEND" ∧
        off + 12 + readDWord bytes off < bytes.length
    · have hfuel : 1 ≤ n := by omega
      have hlen' : bytes.length ≤ (off + 12 + readDWord bytes off) + 12 * n := by omega
      have hrec := ih (off + 12 + readDWord bytes off)
        (visit (readString bytes (off + 4) 4) off (readDWord bytes off) s).1 hfuel hlen'
      have hne := parseChunksAux_ne_nil bytes visit n (off + 12 + readDWord bytes off)
        (visit (readString bytes (off + 4) 4) off (readDWord bytes off) s).1 hfuel
      simp only [parseChunksAux, if_pos hc]
      cases hrest : (parseChunksAux bytes visit n (off + 12 + readDWord bytes off)
          (visit (readString bytes (off + 4) 4) off (readDWord bytes off) s).1).2 with
      | nil => exact absurd hrest hne
      | cons c' rest' =>
        rw [hrest] at hrec
        simp only [WalkTrace]
        exact ⟨by simp, by simp, by simp, hc, hrec⟩
    · simp only [parseChunksAux, if_neg hc, WalkTrace]
      exact ⟨by simp, by simp, by simp, hc⟩

theorem parseChunksAux_fold {σ : Type} (bytes : List Nat)
    (visit : String → Nat → Nat → σ → σ × Bool) :
    ∀ (fuel off : Nat) (s : σ),
      (parseChunksAux bytes visit fuel off s).1 =
        (parseChunksAux bytes visit fuel off s).2.foldl
          (fun st c => (visit c.ctype c.off c.length st).1) s := by
  intro fuel
  induction fuel with
  | zero => intro off s; simp [parseChunksAux]
  | succ n ih =>
    intro off s
    by_cases hc : (visit (readString bytes (off + 4) 4) off (readDWord bytes off) s).2 = true ∧
        readString bytes (off + 4) 4 ≠ "IEND" ∧
        off + 12 + readDWord bytes off < bytes.length
    · simp only [parseChunksAux, if_pos hc, List.foldl_cons]
      exact ih (off + 12 + readDWord bytes off)
        (visit (readString bytes (off + 4) 4) off (readDWord bytes off) s).1
    · simp [parseChunksAux, if_neg hc]

theorem walkTrace_sum (bytes : List Nat) :
    ∀ (tr : List ChunkVisit) (o : Nat), WalkTrace bytes o tr →
      (tr.map (fun c => 12 + c.length)).sum + o =
        ((tr.getLast?).getD default).off + 12 + ((tr.getLast?).getD default).length := by
  intro tr
  induction tr with
  | nil => intro o h; exact absurd h (by simp [WalkTrace])
  | cons c rest ih =>
    intro o h
    cases rest with
    | nil =>
      simp only [WalkTrace] at h
      simp [h.1]
      omega
    | cons c' rest' =>
      simp only [WalkTrace] at h
      have hsum := ih (o + 12 + c.length) h.2.2.2.2
      simp only [List.map_cons, List.sum_cons] at hsum ⊢
      simp only [List.getLast?_cons_cons]
      omega

/-- C1: the chunk walker starts at offset 8, visits the chunks in file order
exactly once with the declared big-endian length and 4-character tag at each
chunk start, advances by 12 + length per chunk, continues exactly while the
visitor returned true, the tag is not IEND and the advanced offset is below
the buffer length, threads the visitor state through the visits in order,
and the total number of bytes consumed (final offset minus the starting
offset 8) equals the sum of 12 + length over the visited chunks. -/
theorem chunk_walker_round_trip {σ : Type} (bytes : List Nat)
    (visit : String → Nat → Nat → σ → σ × Bool) (s : σ) :
    WalkTrace bytes 8 (parseChunks bytes visit s).2 ∧
    (parseChunks bytes visit s).1 =
      (parseChunks bytes visit s).2.foldl
        (fun st c => (visit c.ctype c.off c.length st).1) s ∧
    ((parseChunks bytes visit s).2.map (fun c => 12 + c.length)).sum + 8 =
      (((parseChunks bytes visit s).2.getLast?).getD default).off + 12 +
        (((parseChunks bytes visit s).2.getLast?).getD default).length := by
  have hw := parseChunksAux_walk bytes visit (bytes.length + 1) 8 s (by omega) (by omega)
  refine ⟨hw, parseChunksAux_fold bytes visit (bytes.length + 1) 8 s, ?_⟩
  exact walkTrace_sum bytes (parseChunks bytes visit s).2 8 hw

/-! ### Extraction visitor step lemmas -/

theorem mainStep_acTL (bytes : List Nat) (off length : Nat) (st : ParseState) :
    mainStep bytes "acTL" off length st =
      { st with anim := { st.anim with numPlays := readDWord bytes (off + 8 + 4) } } := by
  rfl

theorem mainStep_numPlays (bytes : List Nat) (type : String) (off length : Nat)
    (st : ParseState) (h : type ≠ "acTL") :
    (mainStep bytes type off length st).anim.numPlays = st.anim.numPlays := by
  unfold mainStep
  split_ifs <;> cases hf : st.frame <;> simp_all

theorem mainStep_frames_length (bytes : List Nat) (type : String) (off length : Nat)
    (st : ParseState) :
    (mainStep bytes type off length st).anim.frames.length =
      st.anim.frames.length +
        (if type = "fcTL" ∧ st.frame.isSome = true then 1 else 0) := by
  unfold mainStep
  split_ifs <;> cases hf : st.frame <;> simp_all

theorem mainStep_isSome (bytes : List Nat) (type : String) (off length : Nat)
    (st : ParseState) :
    (mainStep bytes type off length st).frame.isSome =
      (st.frame.isSome || (type == "fcTL") || (type == "IDAT")) := by
  unfold mainStep
  split_ifs <;> cases hf : st.frame <;> simp_all

/-! ### Fold characterizations of the extraction pass -/

theorem extractState_foldl (bytes : List Nat) :
    extractState bytes =
      (extractTrace bytes).foldl
        (fun st c => mainStep bytes c.ctype c.off c.length st) {} := by
  have h := parseChunksAux_fold bytes (mainVisit bytes) (bytes.length + 1) 8 {}
  simpa [extractState, extractTrace, parseChunks, mainVisit] using h

theorem foldl_numPlays (bytes : List Nat) :
    ∀ (tr : List ChunkVisit) (st : ParseState),
      (tr.foldl (fun st c => mainStep bytes c.ctype c.off c.length st) st).anim.numPlays =
        (match lastAcTL tr with
         | some c => readDWord bytes (c.off + 8 + 4)
         | none => st.anim.numPlays) := by
  intro tr
  induction tr with
  | nil => intro st; rfl
  | cons c rest ih =>
    intro st
    simp only [List.foldl_cons]
    rw [ih]
    cases hl : lastAcTL rest with
    | some x => simp [lastAcTL, hl]
    | none =>
      by_cases hc : c.ctype = "acTL"
      · simp only [lastAcTL, hl, hc, if_pos]
        rfl
      · simp only [lastAcTL, hl, if_neg hc]
        exact mainStep_numPlays bytes c.ctype c.off c.length st hc

theorem foldl_frames (bytes : List Nat) :
    ∀ (tr : List ChunkVisit) (st : ParseState),
      (tr.foldl (fun st c => mainStep bytes c.ctype c.off c.length st) st).anim.frames.length =
          st.anim.frames.length + (frameCount st.frame.isSome tr).1 ∧
        (tr.foldl (fun st c => mainStep bytes c.ctype c.off c.length st) st).frame.isSome =
          (frameCount st.frame.isSome tr).2 := by
  intro tr
  induction tr with
  | nil => intro st; exact ⟨by simp [frameCount], by simp [frameCount]⟩
  | cons c rest ih =>
    intro st
    simp only [List.foldl_cons]
    have hlen := mainStep_frames_length bytes c.ctype c.off c.length st
    have hsome := mainStep_isSome bytes c.ctype c.off c.length st
    by_cases hc : c.ctype = "fcTL"
    · rw [hc] at hlen hsome ⊢
      have hrec := ih (mainStep bytes "fcTL" c.off c.length st)
      have hst : (mainStep bytes "fcTL" c.off c.length st).frame.isSome = true := by
        rw [hsome]; simp
      rw [hst] at hrec
      constructor
      · rw [hrec.1, hlen]
        simp only [frameCount, hc]
        cases hp : st.frame.isSome
        all_goals try simp
        all_goals omega
      · rw [hrec.2]
        simp [frameCount, hc]
    · by_cases hd : c.ctype = "IDAT"
      · rw [hd] at hlen hsome ⊢
        have hrec := ih (mainStep bytes "IDAT" c.off c.length st)
        have hst : (mainStep bytes "IDAT" c.off c.length st).frame.isSome = true := by
          rw [hsome]; simp
        rw [hst] at hrec
        constructor
        · rw [hrec.1, hlen]
          simp [frameCount, hc, hd]
        · rw [hrec.2]
          simp [frameCount, hc, hd]
      · have hrec := ih (mainStep bytes c.ctype c.off c.length st)
        have hst : (mainStep bytes c.ctype c.off c.length st).frame.isSome =
            st.frame.isSome := by
          have e1 : (c.ctype == "fcTL") = false := by simp [hc]
          have e2 : (c.ctype == "IDAT") = false := by simp [hd]
          rw [hsome, e1, e2]
          simp
        rw [hst] at hrec
        constructor
        · rw [hrec.1, hlen]
          simp [frameCount, hc, hd]
        · rw [hrec.2]
          simp [frameCount, hc, hd]

theorem countType_cons (t : String) (c : ChunkVisit) (tr : List ChunkVisit) :
    countType t (c :: tr) = (if c.ctype = t then 1 else 0) + countType t tr := by
  by_cases h : c.ctype = t <;> simp [countType, List.filter_cons, h] <;> omega

theorem frameCount_formula :
    ∀ (tr : List ChunkVisit) (p : Bool),
      (frameCount p tr).1 + (if (frameCount p tr).2 = true then 1 else 0) =
        countType "fcTL" tr +
          (if p = true then 1 else if hasLeadingIDAT tr = true then 1 else 0) := by
  intro tr
  induction tr with
  | nil => intro p; cases p <;> simp [frameCount, countType, hasLeadingIDAT]
  | cons c rest ih =>
    intro p
    rw [countType_cons]
    by_cases hc : c.ctype = "fcTL"
    · have h1 := ih true
      simp only [frameCount, hasLeadingIDAT, hc]
      cases hq : (frameCount true rest).2 <;> cases p <;> simp_all <;> omega
    · by_cases hd : c.ctype = "IDAT"
      · have h1 := ih true
        simp only [frameCount, hasLeadingIDAT, hc, hd]
        cases hq : (frameCount true rest).2 <;> cases p <;> simp_all <;> omega
      · have h1 := ih p
        simp only [frameCount, hasLeadingIDAT, hc, hd]
        cases hq : (frameCount p rest).2 <;> cases p <;> simp_all <;> omega

theorem finalizeState_length (st : ParseState) :
    (finalizeState st).anim.frames.length =
      st.anim.frames.length + (if st.frame.isSome = true then 1 else 0) := by
  cases hf : st.frame <;> simp [finalizeState, hf]

theorem finalizeState_numPlays (st : ParseState) :
    (finalizeState st).anim.numPlays = st.anim.numPlays := by
  cases hf : st.frame <;> simp [finalizeState, hf]

/-! ### Claims C2 to C5 -/

/-- C2: for every frame-control chunk processed, with delay numerator N and
denominator D read as big-endian 16-bit fields from the chunk payload, the
frame's delay equals 1000 * N / 100 when D = 0 and 1000 * N / D otherwise,
except that any resulting value at most 10 milliseconds is replaced by 100
milliseconds; the resulting delay is strictly positive and is added to
Animation.playTime. -/
theorem fcTL_delay_normalization (bytes : List Nat) (off length : Nat)
    (st : ParseState) :
    (mainStep bytes "fcTL" off length st).frame = some (fcTLFrame bytes off) ∧
    (fcTLFrame bytes off).delay =
      (if (if readWord bytes (off + 8 + 22) = 0 then
              (1000 * (readWord bytes (off + 8 + 20) : ℚ)) / 100
            else
              (1000 * (readWord bytes (off + 8 + 20) : ℚ)) /
                (readWord bytes (off + 8 + 22) : ℚ)) ≤ 10
        then (100 : ℚ)
        else if readWord bytes (off + 8 + 22) = 0 then
            (1000 * (readWord bytes (off + 8 + 20) : ℚ)) / 100
          else
            (1000 * (readWord bytes (off + 8 + 20) : ℚ)) /
              (readWord bytes (off + 8 + 22) : ℚ)) ∧
    0 < (fcTLFrame bytes off).delay ∧
    (mainStep bytes "fcTL" off length st).anim.playTime =
      st.anim.playTime + (fcTLFrame bytes off).delay := by
  refine ⟨rfl, ?_, ?_, rfl⟩
  · show fcTLDelay (readWord bytes (off + 8 + 20)) (readWord bytes (off + 8 + 22)) = _
    unfold fcTLDelay fcTLDenom
    by_cases h : readWord bytes (off + 8 + 22) = 0 <;> simp [h]
  · show 0 < fcTLDelay (readWord bytes (off + 8 + 20)) (readWord bytes (off + 8 + 22))
    unfold fcTLDelay
    split_ifs with h
    · norm_num
    · push_neg at h
      linarith

/-- C3: the parse operation rejects with the not-animated error if and only
if ignoreSingle is true and either the pre-scan finds no acTL chunk or the
extraction pass resolves at most one frame; with ignoreSingle false this
error is never produced. -/
theorem not_animated_rejection (bytes : List Nat) (ig fl : Bool) :
    parseAPNG bytes ig fl = Except.error "Not an animated PNG" ↔
      (ig = true ∧ (isAnimated bytes = false ∨
        (finalizeState (extractState bytes)).anim.frames.length ≤ 1)) := by
  unfold parseAPNG
  split_ifs with h1 h2 h3 h4
  · exact iff_of_true rfl ⟨h1.2, Or.inl h1.1⟩
  · exact iff_of_true rfl ⟨h3, Or.inr h2⟩
  · apply iff_of_false
    · simp
    · rintro ⟨hig, _⟩
      exact h3 hig
  · apply iff_of_false
    · simp
    · rintro ⟨hig, hor⟩
      cases hor with
      | inl ha => exact h1 ⟨ha, hig⟩
      | inr hle => exact h2 hle
  · apply iff_of_false
    · simp
    · rintro ⟨hig, hor⟩
      cases hor with
      | inl ha => exact h1 ⟨ha, hig⟩
      | inr hle => exact h2 hle

theorem not_animated_rejection_witness :
    parseAPNG cexBytesC5 true false = Except.error "Not an animated PNG" :=
  (not_animated_rejection cexBytesC5 true false).mpr ⟨rfl, Or.inl (by decide)⟩

/-- C4: after extraction, at most one frame (with ignoreSingle false) forces
numPlays to 1; more than one frame with forceLoop true forces numPlays to 0
regardless of the declared value; otherwise numPlays is the big-endian
32-bit play-count field of the (last) acTL chunk payload. -/
theorem num_plays_policy (bytes : List Nat) (ig fl : Bool) :
    ((finalizeState (extractState bytes)).anim.frames.length ≤ 1 →
      parseAPNG bytes false fl =
        Except.ok { (finalizeState (extractState bytes)).anim with numPlays := 1 }) ∧
    (1 < (finalizeState (extractState bytes)).anim.frames.length →
      (ig = false ∨ isAnimated bytes = true) →
      parseAPNG bytes ig true =
        Except.ok { (finalizeState (extractState bytes)).anim with numPlays := 0 }) ∧
    (1 < (finalizeState (extractState bytes)).anim.frames.length →
      (ig = false ∨ isAnimated bytes = true) →
      parseAPNG bytes ig false =
        Except.ok (finalizeState (extractState bytes)).anim) ∧
    (∀ c, lastAcTL (extractTrace bytes) = some c →
      (finalizeState (extractState bytes)).anim.numPlays =
        readDWord bytes (c.off + 8 + 4)) := by
  refine ⟨?_, ?_, ?_, ?_⟩
  · intro hle
    unfold parseAPNG
    rw [if_neg (by simp), if_pos hle, if_neg (by simp)]
  · intro hgt hor
    have hA : ¬(isAnimated bytes = false ∧ ig = true) := by
      rintro ⟨ha, hig⟩
      cases hor with
      | inl h => rw [h] at hig; cases hig
      | inr h => rw [h] at ha; cases ha
    unfold parseAPNG
    rw [if_neg hA, if_neg (by omega), if_pos rfl]
  · intro hgt hor
    have hA : ¬(isAnimated bytes = false ∧ ig = true) := by
      rintro ⟨ha, hig⟩
      cases hor with
      | inl h => rw [h] at hig; cases hig
      | inr h => rw [h] at ha; cases ha
    unfold parseAPNG
    rw [if_neg hA, if_neg (by omega), if_neg (by simp)]
  · intro c hc
    rw [finalizeState_numPlays, extractState_foldl,
      foldl_numPlays bytes (extractTrace bytes) {}, hc]

theorem num_plays_policy_witness :
    1 < (finalizeState (extractState cexBytesC4)).anim.frames.length ∧
      parseAPNG cexBytesC4 false true =
        Except.ok
          { (finalizeState (extractState cexBytesC4)).anim with numPlays := 0 } :=
  ⟨by decide, (num_plays_policy cexBytesC4 false true).2.1 (by decide) (Or.inl rfl)⟩

/-- C5 (counterexample): on a buffer whose chunks are IDAT, fcTL, IEND the
extraction finalizes two frames while only one fcTL chunk is encountered
(and the input is not primary-image-data-only), so the claimed frame-count
invariant fails. -/
theorem frame_count_claim_counterexample : ¬ claimC5Pred cexBytesC5 := by
  unfold claimC5Pred
  decide

theorem frames_length_eq (bytes : List Nat) :
    (finalizeState (extractState bytes)).anim.frames.length =
      countType "fcTL" (extractTrace bytes) +
        (if hasLeadingIDAT (extractTrace bytes) = true then 1 else 0) := by
  rw [finalizeState_length, extractState_foldl,
    (foldl_frames bytes (extractTrace bytes) {}).1,
    (foldl_frames bytes (extractTrace bytes) {}).2]
  have hinit1 : (({} : ParseState)).anim.frames.length = 0 := rfl
  have hinit2 : (({} : ParseState)).frame.isSome = false := rfl
  rw [hinit1, hinit2]
  have h2 := frameCount_formula (extractTrace bytes) false
  simp only [Bool.false_eq_true, if_false] at h2
  omega

/-- C5 (amended): the number of finalized frames equals the number of fcTL
chunks encountered, plus one extra synthesized default frame exactly when
some IDAT chunk is visited before every fcTL chunk (in particular a
primary-image-data-only input yields exactly one frame). -/
theorem frame_count_amended (bytes : List Nat) :
    (finalizeState (extractState bytes)).anim.frames.length =
      countType "fcTL" (extractTrace bytes) +
        (if hasLeadingIDAT (extractTrace bytes) = true then 1 else 0) :=
  frames_length_eq bytes

/-! ### Claims C8 and C10 -/

/-- C8: the chunk walker performs no bounds checking: it is a total
function that reports no error, the do-while shape invokes the visitor at
least once on every buffer, and whenever the first chunk's declared length
field reaches past the buffer end (in particular whenever the buffer holds
8 or fewer bytes, so that even the signature is missing or short and offset
8 is already out of range) the walker still performs exactly that one
visit, reading the type tag and length at offsets past the data. -/
theorem walker_no_bounds_check {σ : Type} (bytes : List Nat)
    (visit : String → Nat → Nat → σ → σ × Bool) (s : σ) :
    1 ≤ (parseChunks bytes visit s).2.length ∧
    (bytes.length ≤ 20 + readDWord bytes 8 →
      (parseChunks bytes visit s).2 =
        [ChunkVisit.mk (readString bytes 12 4) 8 (readDWord bytes 8)
          ((visit (readString bytes 12 4) 8 (readDWord bytes 8) s).2)]) := by
  constructor
  · have h := parseChunksAux_ne_nil bytes visit (bytes.length + 1) 8 s (by omega)
    exact List.length_pos.mpr h
  · intro h
    show (parseChunksAux bytes visit (bytes.length + 1) 8 s).2 = _
    simp only [parseChunksAux]
    rw [if_neg (by omega)]

theorem walker_no_bounds_check_witness :
    1 ≤ (parseChunks [1, 2, 3] (fun _ _ _ (s : Nat) => (s, true)) 0).2.length ∧
      (parseChunks [1, 2, 3] (fun _ _ _ (s : Nat) => (s, true)) 0).2 =
        [ChunkVisit.mk (readString [1, 2, 3] 12 4) 8 (readDWord [1, 2, 3] 8) true] := by
  have h := walker_no_bounds_check [1, 2, 3] (fun _ _ _ (s : Nat) => (s, true)) 0
  exact ⟨h.1, h.2 (by decide)⟩

theorem hasLeadingIDAT_of_no_IDAT :
    ∀ tr : List ChunkVisit, countType "IDAT" tr = 0 → hasLeadingIDAT tr = false := by
  intro tr
  induction tr with
  | nil => intro _; rfl
  | cons c rest ih =>
    intro h
    rw [countType_cons] at h
    by_cases hd : c.ctype = "IDAT"
    · rw [if_pos hd] at h
      omega
    · rw [if_neg hd] at h
      simp only [hasLeadingIDAT, hd, if_neg, if_false]
      split_ifs with hc
      · rfl
      · exact ih (by omega)

/-- C10: if the extraction pass yields zero frames (no fcTL and no IDAT
chunk) and ignoreSingle is false, the parse does not reject (it produces
the empty animation), yet zero image-load callbacks are installed and the
resolve condition (createdImages incremented to frames.length inside a
callback) can never fire: the promise stays pending forever. -/
theorem zero_frames_pending (bytes : List Nat) (fl : Bool)
    (hf : countType "fcTL" (extractTrace bytes) = 0)
    (hi : countType "IDAT" (extractTrace bytes) = 0) :
    (finalizeState (extractState bytes)).anim.frames = [] ∧
    parseAPNG bytes false fl =
      Except.ok { (finalizeState (extractState bytes)).anim with numPlays := 1 } ∧
    (∀ events : List Bool,
      events.length ≤ (finalizeState (extractState bytes)).anim.frames.length →
      runEvents (finalizeState (extractState bytes)).anim.frames.length 0 events =
        PromiseResult.pending) := by
  have hlen : (finalizeState (extractState bytes)).anim.frames.length = 0 := by
    rw [frames_length_eq, hf, hasLeadingIDAT_of_no_IDAT (extractTrace bytes) hi]
    simp
  refine ⟨List.length_eq_zero.mp hlen, ?_, ?_⟩
  · unfold parseAPNG
    rw [if_neg (by simp), if_pos (by omega), if_neg (by simp)]
  · intro events hev
    rw [hlen] at hev ⊢
    have : events = [] := List.length_eq_zero.mp (by omega)
    rw [this]
    rfl

theorem zero_frames_pending_witness :
    (finalizeState (extractState cexBytesC10)).anim.frames = [] ∧
      parseAPNG cexBytesC10 false false =
        Except.ok { (finalizeState (extractState cexBytesC10)).anim with numPlays := 1 } ∧
      runEvents (finalizeState (extractState cexBytesC10)).anim.frames.length 0 [] =
        PromiseResult.pending := by
  have h := zero_frames_pending cexBytesC10 false (by decide) (by decide)
  exact ⟨h.1, h.2.1, h.2.2 [] (by simp)⟩

/-! ### listSet and subarray lemmas -/

theorem listSet_length : ∀ (l : List Nat) (o : Nat) (src : List Nat),
    (listSet l o src).length = l.length := by
  intro l
  induction l with
  | nil => intro o src; rfl
  | cons x xs ih =>
    intro o src
    cases o with
    | zero =>
      cases src with
      | nil => rfl
      | cons y ys => simp [listSet, ih 0 ys]
    | succ n => simp [listSet, ih n src]

theorem listSet_nil_src : ∀ l : List Nat, listSet l 0 [] = l := by
  intro l
  cases l <;> rfl

theorem listSet_full : ∀ (b src : List Nat), src.length = b.length →
    listSet b 0 src = src := by
  intro b
  induction b with
  | nil =>
    intro src h
    have : src = [] := List.length_eq_zero.mp (by simpa using h)
    subst this
    rfl
  | cons x xs ih =>
    intro src h
    cases src with
    | nil => simp at h
    | cons y ys =>
      simp only [listSet]
      rw [ih ys (by simpa using h)]

theorem listSet_exact0 : ∀ (b c src : List Nat), src.length = b.length →
    listSet (b ++ c) 0 src = src ++ c := by
  intro b
  induction b with
  | nil =>
    intro c src h
    have : src = [] := List.length_eq_zero.mp (by simpa using h)
    subst this
    simp [listSet_nil_src]
  | cons x xs ih =>
    intro c src h
    cases src with
    | nil => simp at h
    | cons y ys =>
      simp only [List.cons_append, listSet, List.append_eq]
      rw [ih c ys (by simpa using h)]

theorem listSet_exact (a b c src : List Nat) (o : Nat) (ho : o = a.length)
    (hs : src.length = b.length) :
    listSet (a ++ (b ++ c)) o src = a ++ (src ++ c) := by
  subst ho
  induction a with
  | nil => simpa using listSet_exact0 b c src hs
  | cons x xs ih =>
    simp only [List.cons_append, List.length_cons, listSet, List.append_eq]
    rw [ih]

theorem listSet_exact_end (a b src : List Nat) (o : Nat) (ho : o = a.length)
    (hs : src.length = b.length) : listSet (a ++ b) o src = a ++ src := by
  subst ho
  induction a with
  | nil => simpa using listSet_full b src hs
  | cons x xs ih =>
    simp only [List.cons_append, List.length_cons, listSet, List.append_eq]
    rw [ih]

theorem makeDWordArray_length (x : Nat) : (makeDWordArray x).length = 4 := rfl

theorem makeStringArray_length (s : String) :
    (makeStringArray s).length = s.length := by
  unfold makeStringArray
  rw [List.length_map]
  rfl

theorem take_append_exact (a x : List Nat) (o : Nat) (ho : o = a.length) :
    (a ++ x).take o = a := by
  subst ho
  exact List.take_left a x

theorem drop_append_exact (a x : List Nat) (o : Nat) (ho : o = a.length) :
    (a ++ x).drop o = x := by
  subst ho
  exact List.drop_left a x

theorem take_append_plus (a x : List Nat) (o n : Nat) (ho : o = a.length + n) :
    (a ++ x).take o = a ++ x.take n := by
  subst ho
  exact List.take_append n

theorem drop_append_plus (a x : List Nat) (o n : Nat) (ho : o = a.length + n) :
    (a ++ x).drop o = x.drop n := by
  subst ho
  exact List.drop_append n

/-! ### Claim C6 -/

/-- C6: every chunk emitted by makeChunkBytes has the layout 4-byte
big-endian payload length, 4-character type tag, payload, then a 4-byte
big-endian checksum that equals the Checksum Unit output crc32 over exactly
the tag-plus-payload bytes. -/
theorem make_chunk_layout (type : String) (dataBytes : List Nat)
    (h : type.length = 4) :
    makeChunkBytes type dataBytes =
      makeDWordArray dataBytes.length ++ makeStringArray type ++ dataBytes ++
        makeDWordArray (crc32 (makeStringArray type ++ dataBytes) 0
          (4 + dataBytes.length)) := by
  have hstr : (makeStringArray type).length = 4 := by
    rw [makeStringArray_length]
    exact h
  have hbody : makeChunkBody type dataBytes =
      makeDWordArray dataBytes.length ++ makeStringArray type ++ dataBytes ++
        List.replicate 4 0 := by
    unfold makeChunkBody
    rw [h]
    have hrep : List.replicate (4 + dataBytes.length + 8) (0 : Nat) =
        List.replicate 4 0 ++ (List.replicate 4 0 ++
          (List.replicate dataBytes.length 0 ++ List.replicate 4 0)) := by
      rw [← List.replicate_add, ← List.replicate_add, ← List.replicate_add]
      congr 1
      omega
    rw [hrep]
    rw [listSet_exact0 _ _ _ (by simp [makeDWordArray_length])]
    rw [listSet_exact (makeDWordArray dataBytes.length) (List.replicate 4 0)
      (List.replicate dataBytes.length 0 ++ List.replicate 4 0)
      (makeStringArray type) 4 (by simp [makeDWordArray_length]) (by simp [hstr])]
    rw [← List.append_assoc (makeDWordArray dataBytes.length) (makeStringArray type)]
    rw [listSet_exact (makeDWordArray dataBytes.length ++ makeStringArray type)
      (List.replicate dataBytes.length 0) (List.replicate 4 0) dataBytes 8
      (by simp [makeDWordArray_length, hstr]) (by simp)]
    simp only [List.append_assoc]
  have hslice : ((makeChunkBody type dataBytes).drop 4).take (4 + dataBytes.length) =
      makeStringArray type ++ dataBytes := by
    rw [hbody]
    have e1 : makeDWordArray dataBytes.length ++ makeStringArray type ++ dataBytes ++
        List.replicate 4 0 = makeDWordArray dataBytes.length ++
          ((makeStringArray type ++ dataBytes) ++ List.replicate 4 0) := by
      simp [List.append_assoc]
    rw [e1]
    rw [drop_append_exact (makeDWordArray dataBytes.length)
      ((makeStringArray type ++ dataBytes) ++ List.replicate 4 0) 4
      (makeDWordArray_length dataBytes.length).symm]
    exact take_append_exact (makeStringArray type ++ dataBytes) (List.replicate 4 0)
      (4 + dataBytes.length) (by rw [List.length_append, hstr])
  have hcrc : crc32 (makeChunkBody type dataBytes) 4 (4 + dataBytes.length) =
      crc32 (makeStringArray type ++ dataBytes) 0 (4 + dataBytes.length) := by
    unfold crc32
    rw [hslice, List.drop_zero, List.take_of_length_le (by simp [hstr])]
  unfold makeChunkBytes
  rw [h, hcrc, hbody]
  rw [listSet_exact_end
    (makeDWordArray dataBytes.length ++ makeStringArray type ++ dataBytes)
    (List.replicate 4 0)
    (makeDWordArray (crc32 (makeStringArray type ++ dataBytes) 0 (4 + dataBytes.length)))
    (4 + dataBytes.length + 4)
    (by simp [makeDWordArray_length, hstr]; omega) (by simp [makeDWordArray_length])]

theorem make_chunk_layout_witness :
    ("IDAT" : String).length = 4 ∧
      makeChunkBytes "IDAT" [1, 2, 3] =
        makeDWordArray ([1, 2, 3] : List Nat).length ++ makeStringArray "IDAT" ++
          [1, 2, 3] ++
          makeDWordArray (crc32 (makeStringArray "IDAT" ++ [1, 2, 3]) 0
            (4 + ([1, 2, 3] : List Nat).length)) :=
  ⟨rfl, make_chunk_layout "IDAT" [1, 2, 3] rfl⟩

/-! ### Buffer mutation lemmas -/

theorem listSet_decomp : ∀ (l : List Nat) (o : Nat) (src : List Nat),
    o + src.length ≤ l.length →
    listSet l o src = l.take o ++ src ++ l.drop (o + src.length) := by
  intro l
  induction l with
  | nil =>
    intro o src h
    have h0 : o + src.length ≤ 0 := h
    have hs : src = [] := List.length_eq_zero.mp (by omega)
    have ho : o = 0 := by omega
    subst hs; subst ho
    rfl
  | cons x xs ih =>
    intro o src h
    cases o with
    | zero =>
      cases src with
      | nil => simp [listSet_nil_src]
      | cons y ys =>
        simp only [listSet]
        rw [ih 0 ys (by simp at h ⊢; omega)]
        simp
    | succ n =>
      simp only [listSet]
      rw [ih n src (by simp at h ⊢; omega)]
      have e : n + 1 + src.length = (n + src.length) + 1 := by omega
      rw [e]
      simp

theorem length_take_of_le (l : List Nat) (n : Nat) (h : n ≤ l.length) :
    (l.take n).length = n := by
  rw [List.length_take]
  omega

theorem mutateHeader_length (b : Nat) (buf : List Nat) (f : Frame) :
    (mutateHeader b buf f).length = buf.length := by
  unfold mutateHeader
  rw [listSet_length, listSet_length]

theorem subarray_length_of_le (l : List Nat) (b e : Nat) (h : e ≤ l.length) :
    (subarray l b e).length = e - b := by
  unfold subarray
  rw [List.length_drop, List.length_take]
  omega

theorem mutateHeader_decomp (b : Nat) (buf : List Nat) (f : Frame)
    (h : b + 8 ≤ buf.length) :
    mutateHeader b buf f = buf.take b ++ (makeDWordArray f.width ++
      (makeDWordArray f.height ++ buf.drop (b + 8))) := by
  unfold mutateHeader
  rw [listSet_decomp buf b (makeDWordArray f.width)
    (by rw [makeDWordArray_length]; omega)]
  rw [makeDWordArray_length]
  have hsplit : buf.drop (b + 4) = (buf.drop (b + 4)).take 4 ++ buf.drop (b + 8) := by
    have h1 := List.take_append_drop 4 (buf.drop (b + 4))
    have h2 : (buf.drop (b + 4)).drop 4 = buf.drop (b + 8) := by
      rw [List.drop_drop]
    rw [h2] at h1
    exact h1.symm
  rw [hsplit]
  rw [listSet_exact (buf.take b ++ makeDWordArray f.width)
    ((buf.drop (b + 4)).take 4) (buf.drop (b + 8)) (makeDWordArray f.height) (b + 4)
    (by rw [List.length_append, length_take_of_le buf b (by omega), makeDWordArray_length])
    (by rw [makeDWordArray_length, length_take_of_le _ 4 (by rw [List.length_drop]; omega)])]
  simp [List.append_assoc]

theorem header_window (b e : Nat) (buf : List Nat) (f : Frame)
    (h1 : b + 8 ≤ e) (h2 : e ≤ buf.length) :
    subarray (mutateHeader b buf f) b e =
      makeDWordArray f.width ++ (makeDWordArray f.height ++
        (subarray buf b e).drop 8) := by
  unfold subarray
  rw [mutateHeader_decomp b buf f (by omega)]
  rw [show buf.take b ++ (makeDWordArray f.width ++ (makeDWordArray f.height ++
      buf.drop (b + 8))) = (buf.take b ++ (makeDWordArray f.width ++
      makeDWordArray f.height)) ++ buf.drop (b + 8) from by simp [List.append_assoc]]
  rw [take_append_plus (buf.take b ++ (makeDWordArray f.width ++ makeDWordArray f.height))
    (buf.drop (b + 8)) e (e - (b + 8))
    (by rw [List.length_append, List.length_append, length_take_of_le buf b (by omega),
      makeDWordArray_length, makeDWordArray_length]; omega)]
  rw [List.append_assoc (buf.take b)]
  rw [drop_append_exact (buf.take b) _ b (length_take_of_le buf b (by omega)).symm]
  have hX : ((buf.take e).drop b).drop 8 = (buf.drop (b + 8)).take (e - (b + 8)) := by
    rw [List.drop_drop, List.drop_take]
  rw [hX]
  simp [List.append_assoc]

theorem double_set (T W H : List Nat) (hW : W.length = 4) (hH : H.length = 4)
    (hT : 8 ≤ T.length) :
    listSet (listSet T 0 W) 4 H = W ++ (H ++ T.drop 8) := by
  have h1 : listSet T 0 W = W ++ T.drop 4 := by
    have := listSet_decomp T 0 W (by omega)
    simpa [hW] using this
  rw [h1]
  have hsplit : T.drop 4 = (T.drop 4).take 4 ++ T.drop 8 := by
    have ha := List.take_append_drop 4 (T.drop 4)
    have hb : (T.drop 4).drop 4 = T.drop 8 := by
      rw [List.drop_drop]
    rw [hb] at ha
    exact ha.symm
  rw [hsplit]
  rw [listSet_exact W ((T.drop 4).take 4) (T.drop 8) H 4 hW.symm
    (by rw [hH, length_take_of_le _ 4 (by rw [List.length_drop]; omega)])]

theorem listSet_getElem?_outside : ∀ (l : List Nat) (o : Nat) (src : List Nat) (i : Nat),
    (i < o ∨ o + src.length ≤ i) → (listSet l o src)[i]? = l[i]? := by
  intro l
  induction l with
  | nil => intro o src i h; rfl
  | cons x xs ih =>
    intro o src i h
    cases o with
    | zero =>
      cases src with
      | nil => rfl
      | cons y ys =>
        cases i with
        | zero => simp at h
        | succ j =>
          simp only [listSet, List.getElem?_cons_succ]
          apply ih 0 ys j
          rcases h with h | h
          · omega
          · right; simp at h ⊢; omega
    | succ n =>
      cases i with
      | zero => simp [listSet]
      | succ j =>
        simp only [listSet, List.getElem?_cons_succ]
        apply ih n src j
        rcases h with h | h
        · left; omega
        · right; omega

theorem mutate_getElem?_outside (b : Nat) (buf : List Nat) (f : Frame) (i : Nat)
    (h : i < b ∨ b + 8 ≤ i) : (mutateHeader b buf f)[i]? = buf[i]? := by
  unfold mutateHeader
  rw [listSet_getElem?_outside _ _ _ i
    (by rcases h with h | h
        · left; omega
        · right; rw [makeDWordArray_length]; omega)]
  rw [listSet_getElem?_outside _ _ _ i
    (by rcases h with h | h
        · left; omega
        · right; rw [makeDWordArray_length]; omega)]

theorem subarray_congr (l₁ l₂ : List Nat) (u v : Nat)
    (h : ∀ i, u ≤ i → i < v → l₁[i]? = l₂[i]?) :
    subarray l₁ u v = subarray l₂ u v := by
  apply List.ext_getElem?
  intro k
  unfold subarray
  rw [List.getElem?_drop, List.getElem?_drop, List.getElem?_take, List.getElem?_take]
  split_ifs with hc
  · exact h (u + k) (by omega) hc
  · rfl

theorem mutate_subarray_disjoint (b : Nat) (buf : List Nat) (f : Frame) (u v : Nat)
    (hd : v ≤ b ∨ b + 8 ≤ u) :
    subarray (mutateHeader b buf f) u v = subarray buf u v := by
  apply subarray_congr
  intro i hu hv
  apply mutate_getElem?_outside
  rcases hd with h | h
  · left; omega
  · right; omega

/-! ### Claim C7 -/

/-- C7: an fdAT chunk appends its payload minus the leading 4-byte sequence
number to the in-progress frame's data parts, an IDAT chunk appends its
full payload, and each synthesized per-frame stream is exactly the PNG
signature, an IHDR chunk wrapping the shared header template with its
width/height fields overwritten by this frame's dimensions, the prologue
verbatim, one freshly wrapped IDAT chunk per data part, and the epilogue
verbatim. -/
theorem frame_stream_composition :
    (∀ (bytes : List Nat) (off length : Nat) (st : ParseState) (f0 : Frame),
      st.frame = some f0 →
      (mainStep bytes "fdAT" off length st).frame =
        some { f0 with dataParts := f0.dataParts ++ [(off + 8 + 4, off + 8 + length)] }) ∧
    (∀ (bytes : List Nat) (off length : Nat) (st : ParseState) (f0 : Frame),
      st.frame = some f0 →
      (mainStep bytes "IDAT" off length st).frame =
        some { f0 with dataParts := f0.dataParts ++ [(off + 8, off + 8 + length)] }) ∧
    (∀ (pre post buf : List Nat) (b e : Nat) (frames : List Frame),
      b + 8 ≤ e → e ≤ buf.length →
      (∀ f ∈ frames, ∀ p ∈ f.dataParts, p.2 ≤ b ∨ b + 8 ≤ p.1) →
      (synthFrames pre post b e buf frames).2 = frames.map (fun f =>
        pngSignature ++ makeChunkBytes "IHDR"
          (listSet (listSet (subarray buf b e) 0 (makeDWordArray f.width)) 4
            (makeDWordArray f.height)) ++ pre ++
        (f.dataParts.map (fun p => makeChunkBytes "IDAT" (subarray buf p.1 p.2))).flatten ++
        post)) := by
  refine ⟨?_, ?_, ?_⟩
  · intro bytes off length st f0 h
    simp [mainStep, h]
  · intro bytes off length st f0 h
    simp [mainStep, h]
  · intro pre post buf b e frames
    induction frames generalizing buf with
    | nil => intro h1 h2 h3; rfl
    | cons f fs ih =>
      intro h1 h2 h3
      simp only [synthFrames, List.map_cons, List.cons.injEq]
      constructor
      · rw [header_window b e buf f h1 h2,
          double_set (subarray buf b e) (makeDWordArray f.width)
            (makeDWordArray f.height) (makeDWordArray_length _) (makeDWordArray_length _)
            (by rw [subarray_length_of_le buf b e h2]; omega)]
        rw [show f.dataParts.map
            (fun p => makeChunkBytes "IDAT" (subarray (mutateHeader b buf f) p.1 p.2)) =
            f.dataParts.map (fun p => makeChunkBytes "IDAT" (subarray buf p.1 p.2)) from
          List.map_congr_left (fun p hp => by
            rw [mutate_subarray_disjoint b buf f p.1 p.2
              (h3 f (List.mem_cons_self f fs) p hp)])]
      · rw [ih (mutateHeader b buf f) h1 (by rw [mutateHeader_length]; exact h2)
          (fun g hg p hp => h3 g (List.mem_cons_of_mem f hg) p hp)]
        apply List.map_congr_left
        intro g hg
        have habs : listSet (listSet (subarray (mutateHeader b buf f) b e) 0
            (makeDWordArray g.width)) 4 (makeDWordArray g.height) =
            listSet (listSet (subarray buf b e) 0 (makeDWordArray g.width)) 4
              (makeDWordArray g.height) := by
          rw [double_set _ _ _ (makeDWordArray_length _) (makeDWordArray_length _)
            (by rw [subarray_length_of_le _ b e (by rw [mutateHeader_length]; exact h2)]
                omega),
            double_set _ _ _ (makeDWordArray_length _) (makeDWordArray_length _)
              (by rw [subarray_length_of_le buf b e h2]; omega)]
          rw [header_window b e buf f h1 h2]
          rw [show makeDWordArray f.width ++ (makeDWordArray f.height ++
              (subarray buf b e).drop 8) = (makeDWordArray f.width ++
              makeDWordArray f.height) ++ (subarray buf b e).drop 8 from by
            simp [List.append_assoc]]
          rw [drop_append_exact (makeDWordArray f.width ++ makeDWordArray f.height) _ 8
            (by rw [List.length_append, makeDWordArray_length, makeDWordArray_length])]
        rw [habs]
        rw [show g.dataParts.map
            (fun p => makeChunkBytes "IDAT" (subarray (mutateHeader b buf f) p.1 p.2)) =
            g.dataParts.map (fun p => makeChunkBytes "IDAT" (subarray buf p.1 p.2)) from
          List.map_congr_left (fun p hp => by
            rw [mutate_subarray_disjoint b buf f p.1 p.2
              (h3 g (List.mem_cons_of_mem f hg) p hp)])]

theorem frame_stream_composition_witness :
    (synthFrames [9, 9] [7, 7] 8 21 (List.range 32)
        [Frame.mk 2 3 0 0 100 1 1 [(25, 28)]]).2 =
      [Frame.mk 2 3 0 0 100 1 1 [(25, 28)]].map (fun f =>
        pngSignature ++ makeChunkBytes "IHDR"
          (listSet (listSet (subarray (List.range 32) 8 21) 0 (makeDWordArray f.width)) 4
            (makeDWordArray f.height)) ++ [9, 9] ++
        (f.dataParts.map
          (fun p => makeChunkBytes "IDAT" (subarray (List.range 32) p.1 p.2))).flatten ++
        [7, 7]) :=
  frame_stream_composition.2.2 [9, 9] [7, 7] (List.range 32) 8 21
    [Frame.mk 2 3 0 0 100 1 1 [(25, 28)]] (by omega) (by simp) (by decide)

/-! ### Claim C9 -/

theorem synth_fst (pre post : List Nat) (b e : Nat) :
    ∀ (l : List Frame) (buf : List Nat),
      (synthFrames pre post b e buf l).1 =
        l.foldl (fun B f => mutateHeader b B f) buf := by
  intro l
  induction l with
  | nil => intro buf; rfl
  | cons f fs ih =>
    intro buf
    simp only [synthFrames, List.foldl_cons]
    exact ih (mutateHeader b buf f)

theorem foldl_mutate_length (b : Nat) :
    ∀ (l : List Frame) (buf : List Nat),
      (l.foldl (fun B f => mutateHeader b B f) buf).length = buf.length := by
  intro l
  induction l with
  | nil => intro buf; rfl
  | cons f fs ih =>
    intro buf
    rw [List.foldl_cons, ih (mutateHeader b buf f), mutateHeader_length]

theorem mutate_window (b : Nat) (buf : List Nat) (f : Frame)
    (h : b + 8 ≤ buf.length) :
    subarray (mutateHeader b buf f) b (b + 8) =
      makeDWordArray f.width ++ makeDWordArray f.height := by
  rw [header_window b (b + 8) buf f (le_refl (b + 8)) h]
  have hnil : (subarray buf b (b + 8)).drop 8 = [] := by
    apply List.length_eq_zero.mp
    rw [List.length_drop, subarray_length_of_le buf b (b + 8) h]
    omega
  rw [hnil]
  simp

/-- C9: the header template is a live view of the caller's buffer, so
frame synthesis mutates the buffer in place: after synthesizing the first
k + 1 frames the buffer window [b, b + 8) holds frame k's big-endian width
and height, after the whole loop it holds the last frame's dimensions (for
the standard layout, the IHDR case records the view bounds off + 8 =
16 when the IHDR chunk sits at offset 8, so the window is bytes
16..23). -/
theorem header_template_mutation (bytes pre post : List Nat) (b e : Nat)
    (frames : List Frame) (h8 : b + 8 ≤ bytes.length) :
    (∀ (k : Nat) (hk : k < frames.length),
      subarray (synthFrames pre post b e bytes (frames.take (k + 1))).1 b (b + 8) =
        makeDWordArray (frames.get ⟨k, hk⟩).width ++
          makeDWordArray (frames.get ⟨k, hk⟩).height) ∧
    (frames ≠ [] →
      subarray (synthFrames pre post b e bytes frames).1 b (b + 8) =
        makeDWordArray ((frames.getLast?).getD default).width ++
          makeDWordArray ((frames.getLast?).getD default).height) ∧
    (∀ (off length : Nat) (st : ParseState),
      (mainStep bytes "IHDR" off length st).header = some (off + 8, off + 8 + length)) := by
  have key : ∀ (l : List Frame) (f : Frame),
      subarray (synthFrames pre post b e bytes (l ++ [f])).1 b (b + 8) =
        makeDWordArray f.width ++ makeDWordArray f.height := by
    intro l f
    rw [synth_fst, List.foldl_append]
    simp only [List.foldl_cons, List.foldl_nil]
    exact mutate_window b _ f (by rw [foldl_mutate_length]; exact h8)
  refine ⟨?_, ?_, ?_⟩
  · intro k hk
    have ht : frames.take (k + 1) = frames.take k ++ [frames.get ⟨k, hk⟩] := by
      rw [List.get_eq_getElem, ← List.concat_eq_append]
      exact (List.take_concat_get frames k hk).symm
    rw [ht, key]
  · intro hne
    have h2 := key frames.dropLast (frames.getLast hne)
    rw [List.dropLast_append_getLast hne] at h2
    rw [h2, List.getLast?_eq_getLast frames hne]
    rfl
  · intro off length st
    rfl

theorem header_template_mutation_witness :
    ([Frame.mk 1 2 0 0 100 1 1 [], Frame.mk 3 4 0 0 100 1 1 []] ≠ ([] : List Frame)) ∧
      subarray (synthFrames [] [] 4 20 (List.range 30)
          [Frame.mk 1 2 0 0 100 1 1 [], Frame.mk 3 4 0 0 100 1 1 []]).1 4 (4 + 8) =
        makeDWordArray
            ((([Frame.mk 1 2 0 0 100 1 1 [],
                Frame.mk 3 4 0 0 100 1 1 []].getLast?).getD default)).width ++
          makeDWordArray
            ((([Frame.mk 1 2 0 0 100 1 1 [],
                Frame.mk 3 4 0 0 100 1 1 []].getLast?).getD default)).height :=
  ⟨by simp,
    (header_template_mutation (List.range 30) [] [] 4 20
      [Frame.mk 1 2 0 0 100 1 1 [], Frame.mk 3 4 0 0 100 1 1 []] (by simp)).2.1
      (by simp)⟩
